import Mathlib

/-!
Verification development for the quadlet install-directive resolution and
symlink-planning engine, and for the `podman pull` platform-flag handling.

The install/symlink engine (extractor, planner, materializer) is modelled
from the specification: the repository snapshot contains only its end-to-end
test fixture (`test/e2e/quadlet/install.container`), not the generator code
itself.  The `podman pull` platform handling is embedded from
`cmd/podman/images/pull.go` (`imagePull`).

All string processing is done structurally over `List Char` (via
`String.data`) so that every definition is executable and kernel-reducible.
-/

namespace Quadlet

/-- ASCII whitespace, as used to separate tokens in a directive value. -/
def isWsChar (c : Char) : Bool :=
  c = ' ' || c = '\t' || c = '\n' || c = '\r'

/-- Split a character list on `'/'`.  Matches the semantics of Go's
`strings.Split(s, "/")` and of systemd-style path-component decomposition:
`"" ↦ [""]`, `"a/b" ↦ ["a", "b"]`, `"/x" ↦ ["", "x"]`. -/
def splitSlashL : List Char → List (List Char)
  | [] => [[]]
  | c :: rest =>
    let r := splitSlashL rest
    if c = '/' then [] :: r
    else
      match r with
      | [] => [[c]]
      | h :: t => (c :: h) :: t

/-- Split a string on `'/'` into its components. -/
def splitSlash (s : String) : List String :=
  (splitSlashL s.data).map (fun l => ⟨l⟩)

/-- The proper ancestor directories of a relative path, outermost first:
`"in/a/dir/x.service" ↦ ["in", "in/a", "in/a/dir"]`. -/
def properDirsL : List (List Char) → List (List Char)
  | [] => []
  | [_] => []
  | x :: rest => x :: (properDirsL rest).map (fun q => x ++ '/' :: q)

/-- Parent directory paths of a relative link path, outermost first. -/
def parentPaths (p : String) : List String :=
  (properDirsL (splitSlashL p.data)).map (fun l => ⟨l⟩)

/-- Drop leading and trailing ASCII whitespace. -/
def trimL (l : List Char) : List Char :=
  ((l.dropWhile isWsChar).reverse.dropWhile isWsChar).reverse

/-- Tokenizer state machine over the characters of a raw directive value.
`inQ` is true inside a double-quoted run; `cur` is the reversed current
token (`none` between tokens).  Quoted runs are unquoted: their delimiting
`'"'` characters are dropped and their content (including any whitespace)
joins the current token. -/
def tokRun : List Char → Bool → Option (List Char) → List (List Char)
  | [], _, none => []
  | [], _, some acc => [acc.reverse]
  | c :: rest, true, cur =>
    if c = '"' then tokRun rest false (some (cur.getD []))
    else tokRun rest true (some (c :: cur.getD []))
  | c :: rest, false, cur =>
    if c = '"' then tokRun rest true (some (cur.getD []))
    else if isWsChar c then
      match cur with
      | none => tokRun rest false none
      | some acc => acc.reverse :: tokRun rest false none
    else tokRun rest false (some (c :: cur.getD []))

/-- Modelled from the spec (§4.1, missing from the snapshot): split a raw
directive value into whitespace-separated, unquoted tokens. -/
def tokenize (s : String) : List String :=
  (tokRun s.data false none).map (fun l => ⟨l⟩)

/-- Modelled from the spec (§4.1): a token is malformed when it is empty
after unquoting or reduces, after whitespace trimming, to just a path
separator. -/
def badToken (t : String) : Bool :=
  t = "" || trimL t.data = ['/']

/-- A raw directive value contains a malformed token. -/
def hasBadToken (v : String) : Bool :=
  (tokenize v).any badToken

/-- The four directive keys recognized in `[Install]`. -/
def recognizedKey (k : String) : Bool :=
  k = "Alias" || k = "WantedBy" || k = "RequiredBy" || k = "UpheldBy"

/-- Extraction-time error: a malformed token under a recognized key,
identifying the offending key and raw value. -/
inductive ExtractError where
  | malformedInstallDirective (key : String) (raw : String)
  deriving DecidableEq, Repr

/-- Normalized install semantics for one source unit (spec §3). -/
structure InstallSpec where
  aliases : List String
  wantedBy : List String
  requiredBy : List String
  upheldBy : List String
  deriving DecidableEq, Repr

/-- Append tokens to an ordered set: first-seen order preserved, exact
duplicates dropped silently. -/
def addTokens (acc : List String) (ts : List String) : List String :=
  ts.foldl (fun a t => if t ∈ a then a else a ++ [t]) acc

/-- Merge one recognized directive line's tokens into the spec under
construction. -/
def applyLine (s : InstallSpec) (k : String) (ts : List String) : InstallSpec :=
  if k = "Alias" then { s with aliases := addTokens s.aliases ts }
  else if k = "WantedBy" then { s with wantedBy := addTokens s.wantedBy ts }
  else if k = "RequiredBy" then { s with requiredBy := addTokens s.requiredBy ts }
  else if k = "UpheldBy" then { s with upheldBy := addTokens s.upheldBy ts }
  else s

/-- Modelled from the spec (§4.1, missing from the snapshot): process the
`[Install]` section's ordered `(key, rawValue)` lines, merging tokens per
recognized key and aborting on the first malformed token. -/
def extractGo : List (String × String) → InstallSpec → Except ExtractError InstallSpec
  | [], s => .ok s
  | (k, v) :: rest, s =>
    if recognizedKey k then
      if hasBadToken v then .error (.malformedInstallDirective k v)
      else extractGo rest (applyLine s k (tokenize v))
    else extractGo rest s

/-- Modelled from the spec (§4.1): the Install Directive Extractor. -/
def extractInstall (sec : List (String × String)) : Except ExtractError InstallSpec :=
  extractGo sec ⟨[], [], [], []⟩

/-- The generated unit's identity: its file name.  The output directory is
treated as an opaque root (spec §3); all planned paths are relative to it. -/
structure UnitIdentity where
  fileName : String
  deriving DecidableEq, Repr

/-- One planned symlink: a link path relative to the output root and the
target string the symlink stores. -/
structure SymlinkPlanEntry where
  linkPath : String
  linkTarget : String
  deriving DecidableEq, Repr

/-- Planner error: an alias whose path would escape the output root
(the spec's `UnsafeAliasPath`). -/
inductive PlanError where
  | aliasEscapesRoot (a : String)
  deriving DecidableEq, Repr

/-- Directory depth of an alias: number of `'/'`-separated components
minus one (spec §4.2). -/
def aliasDepth (a : String) : Nat :=
  (splitSlashL a.data).length - 1

/-- `n` repetitions of `"../"`. -/
def upDots : Nat → String
  | 0 => ""
  | n + 1 => "../" ++ upDots n

/-- Modelled from the spec (§4.2): an alias name is safe unless it begins
with `'/'` or contains a literal `".."` path segment. -/
def aliasSafe (a : String) : Bool :=
  !(match a.data with
    | '/' :: _ => true
    | _ => (splitSlashL a.data).contains ['.', '.'])

/-- Planned entry for one alias: link at the alias path, targeting the
generated unit file via `aliasDepth` many `"../"` steps. -/
def aliasEntry (u : UnitIdentity) (a : String) : SymlinkPlanEntry :=
  ⟨a, upDots (aliasDepth a) ++ u.fileName⟩

/-- Planned entry for one dependency-relation target `t` with relation
subdirectory suffix `sfx` (one of `".wants"`, `".requires"`, `".upholds"`). -/
def relationEntry (u : UnitIdentity) (sfx : String) (t : String) : SymlinkPlanEntry :=
  ⟨t ++ sfx ++ "/" ++ u.fileName, "../" ++ u.fileName⟩

/-- Modelled from the spec (§4.2, missing from the snapshot): the Symlink
Planner.  Rejects the first escaping alias; otherwise emits the families in
the fixed order Alias, WantedBy, RequiredBy, UpheldBy, each in the
InstallSpec's preserved order. -/
def plan (u : UnitIdentity) (s : InstallSpec) : Except PlanError (List SymlinkPlanEntry) :=
  match s.aliases.find? (fun a => !aliasSafe a) with
  | some a => .error (.aliasEscapesRoot a)
  | none =>
    .ok (s.aliases.map (aliasEntry u)
      ++ s.wantedBy.map (relationEntry u ".wants")
      ++ s.requiredBy.map (relationEntry u ".requires")
      ++ s.upheldBy.map (relationEntry u ".upholds"))

/-- A pipeline error: extraction failure or planning failure.  Either one
aborts the unit's generation before the materializer runs. -/
inductive PipelineError where
  | extraction (e : ExtractError)
  | planning (e : PlanError)
  deriving DecidableEq, Repr

/-- Extraction followed by planning, for one unit. -/
def planOfSection (u : UnitIdentity) (sec : List (String × String)) :
    Except PipelineError (List SymlinkPlanEntry) :=
  match extractInstall sec with
  | .error e => .error (.extraction e)
  | .ok s =>
    match plan u s with
    | .error e => .error (.planning e)
    | .ok l => .ok l

/-- A node in the modelled output tree: a directory, a symlink storing a
target string, or a regular file. -/
inductive FsNode where
  | dir
  | symlink (target : String)
  | file
  deriving DecidableEq, Repr

/-- The output tree under the output root, as a partial map from relative
paths to nodes. -/
def Fs : Type := String → Option FsNode

/-- Point update of the output tree. -/
def fsSet (fs : Fs) (p : String) (n : Option FsNode) : Fs :=
  fun q => if q = p then n else fs q

/-- Modelled from the spec (§4.3): create one directory; a directory (or
anything else) already present at the path is left alone. -/
def ensureDir (fs : Fs) (p : String) : Fs :=
  match fs p with
  | none => fsSet fs p (some .dir)
  | some _ => fs

/-- Modelled from the spec (§4.3): create the missing parent directories of
a link path, outermost first. -/
def ensureParents (fs : Fs) (p : String) : Fs :=
  (parentPaths p).foldl ensureDir fs

/-- Modelled from the spec (§4.3): realize one plan entry — ensure parents,
then create the symlink; a symlink already storing the desired target is
left untouched, anything else at the path is replaced. -/
def applyEntry (fs : Fs) (e : SymlinkPlanEntry) : Fs :=
  let fs' := ensureParents fs e.linkPath
  match fs' e.linkPath with
  | some (.symlink t) =>
    if t = e.linkTarget then fs' else fsSet fs' e.linkPath (some (.symlink e.linkTarget))
  | _ => fsSet fs' e.linkPath (some (.symlink e.linkTarget))

/-- Modelled from the spec (§4.3): the Filesystem Materializer's creation
pass, realizing the plan entries in order. -/
def materialize (fs : Fs) (entries : List SymlinkPlanEntry) : Fs :=
  entries.foldl applyEntry fs

/-- Modelled from the spec (§4.3): stale-entry cleanup — remove every link
path of the previous run's plan that is absent from the current plan. -/
def removeStale (fs : Fs) (prevPaths curPaths : List String) : Fs :=
  prevPaths.foldl (fun f p => if p ∈ curPaths then f else fsSet f p none) fs

/-- One full materializer run for one source unit: stale cleanup against the
previous run's link paths, then realization of the current plan. -/
def generationRun (fs : Fs) (prevPaths : List String) (entries : List SymlinkPlanEntry) : Fs :=
  materialize (removeStale fs prevPaths (entries.map SymlinkPlanEntry.linkPath)) entries

/-- The whole pipeline for one source unit: extract, plan, materialize.
Extraction or planning errors abort the run before the materializer touches
the tree. -/
def runUnit (fs : Fs) (sec : List (String × String)) (u : UnitIdentity)
    (prevPaths : List String) : Fs × Option PipelineError :=
  match extractInstall sec with
  | .error e => (fs, some (.extraction e))
  | .ok s =>
    match plan u s with
    | .error e => (fs, some (.planning e))
    | .ok entries => (generationRun fs prevPaths entries, none)

/-- The `[Install]` section of the e2e fixture `install.container`, after
upstream line-continuation joining, as the ordered `(key, rawValue)` list
the extractor receives. -/
def fixtureSection : List (String × String) :=
  [("Alias", "alias.service \"another-alias.service\""),
   ("Alias", "in/a/dir/alias3.service"),
   ("WantedBy", "want1.service want2.service"),
   ("WantedBy", "want3.service"),
   ("RequiredBy", "req1.service req2.service"),
   ("RequiredBy", "req3.service"),
   ("UpheldBy", "up1.service up2.service"),
   ("UpheldBy", "up3.service")]

/-- The twelve links the fixture's `assert-symlink` lines demand, in plan
order. -/
def fixturePlan : List SymlinkPlanEntry :=
  [⟨"alias.service", "install.service"⟩,
   ⟨"another-alias.service", "install.service"⟩,
   ⟨"in/a/dir/alias3.service", "../../../install.service"⟩,
   ⟨"want1.service.wants/install.service", "../install.service"⟩,
   ⟨"want2.service.wants/install.service", "../install.service"⟩,
   ⟨"want3.service.wants/install.service", "../install.service"⟩,
   ⟨"req1.service.requires/install.service", "../install.service"⟩,
   ⟨"req2.service.requires/install.service", "../install.service"⟩,
   ⟨"req3.service.requires/install.service", "../install.service"⟩,
   ⟨"up1.service.upholds/install.service", "../install.service"⟩,
   ⟨"up2.service.upholds/install.service", "../install.service"⟩,
   ⟨"up3.service.upholds/install.service", "../install.service"⟩]

/-- The InstallSpec the extractor produces from the fixture section. -/
def fixtureSpec : InstallSpec :=
  ⟨["alias.service", "another-alias.service", "in/a/dir/alias3.service"],
   ["want1.service", "want2.service", "want3.service"],
   ["req1.service", "req2.service", "req3.service"],
   ["up1.service", "up2.service", "up3.service"]⟩

theorem strAppend_cancel_right {a b c : String} (h : a ++ c = b ++ c) : a = b := by
  apply String.ext
  have hd : a.data ++ c.data = b.data ++ c.data := by
    rw [← String.data_append, ← String.data_append, h]
  exact List.append_cancel_right hd

theorem relationEntry_injective (u : UnitIdentity) (sfx : String) :
    Function.Injective (relationEntry u sfx) := by
  intro t1 t2 h
  have hp : t1 ++ sfx ++ "/" ++ u.fileName = t2 ++ sfx ++ "/" ++ u.fileName :=
    congrArg SymlinkPlanEntry.linkPath h
  exact strAppend_cancel_right (strAppend_cancel_right (strAppend_cancel_right hp))

theorem plan_eq_ok {u : UnitIdentity} {s : InstallSpec} {l : List SymlinkPlanEntry}
    (h : plan u s = .ok l) :
    l = s.aliases.map (aliasEntry u)
      ++ s.wantedBy.map (relationEntry u ".wants")
      ++ s.requiredBy.map (relationEntry u ".requires")
      ++ s.upheldBy.map (relationEntry u ".upholds") := by
  unfold plan at h
  cases hf : s.aliases.find? (fun a => !aliasSafe a) with
  | some a => rw [hf] at h; exact absurd h (by simp)
  | none => rw [hf] at h; simp only [Except.ok.injEq] at h; exact h.symm

theorem relation_family_count {u : UnitIdentity} {sfx : String} {ts : List String} {t : String}
    (hnd : ts.Nodup) (ht : t ∈ ts) :
    (ts.map (relationEntry u sfx)).count (relationEntry u sfx t) = 1 := by
  rw [List.count_map_of_injective ts (relationEntry u sfx) (relationEntry_injective u sfx) t]
  exact List.count_eq_one_of_mem hnd ht

/-- C1: on the fixture's `[Install]` section with generated unit
`install.service`, the extract-then-plan pipeline produces exactly the
twelve links of the fixture's `assert-symlink` list — the two sibling
aliases targeting `install.service`, the nested alias targeting
`../../../install.service`, and one `<name>.service.{wants,requires,upholds}/
install.service → ../install.service` link per declared target — and no
other links. -/
theorem spec_C1_fixture_plan :
    planOfSection ⟨"install.service"⟩ fixtureSection = .ok fixturePlan := by
  rfl

/-- C7: the planner is deterministic — two invocations on the same inputs
agree — and every successful plan is grouped by directive family in the
fixed order Alias, WantedBy, RequiredBy, UpheldBy, with entries within a
family in the InstallSpec's preserved first-seen order. -/
theorem spec_C7_deterministic_grouped (u : UnitIdentity) (s : InstallSpec)
    (l : List SymlinkPlanEntry) (h : plan u s = .ok l) :
    plan u s = plan u s
    ∧ l = s.aliases.map (aliasEntry u)
        ++ s.wantedBy.map (relationEntry u ".wants")
        ++ s.requiredBy.map (relationEntry u ".requires")
        ++ s.upheldBy.map (relationEntry u ".upholds") :=
  ⟨rfl, plan_eq_ok h⟩

/-- Witness for C7 at the fixture InstallSpec. -/
theorem spec_C7_witness :
    plan ⟨"install.service"⟩ fixtureSpec = plan ⟨"install.service"⟩ fixtureSpec
    ∧ fixturePlan = fixtureSpec.aliases.map (aliasEntry ⟨"install.service"⟩)
        ++ fixtureSpec.wantedBy.map (relationEntry ⟨"install.service"⟩ ".wants")
        ++ fixtureSpec.requiredBy.map (relationEntry ⟨"install.service"⟩ ".requires")
        ++ fixtureSpec.upheldBy.map (relationEntry ⟨"install.service"⟩ ".upholds") :=
  spec_C7_deterministic_grouped ⟨"install.service"⟩ fixtureSpec fixturePlan rfl

/-- C2: every alias name `a` accepted by the planner yields the planned
entry whose link path is `a` itself and whose link target is exactly
`aliasDepth a` repetitions of `"../"` (that is, the number of
`'/'`-separated components of `a` minus one) followed by the generated unit
file name; `upDots` is by construction that exact repetition, it depends
only on `a`, and at depth 0 the target is the bare generated unit file
name. -/
theorem spec_C2_alias_depth (u : UnitIdentity) (s : InstallSpec)
    (l : List SymlinkPlanEntry) (a : String)
    (h : plan u s = .ok l) (ha : a ∈ s.aliases) :
    (⟨a, upDots (aliasDepth a) ++ u.fileName⟩ : SymlinkPlanEntry) ∈ l
    ∧ upDots 0 ++ u.fileName = u.fileName := by
  constructor
  · rw [plan_eq_ok h]
    exact List.mem_append_left _ (List.mem_append_left _
      (List.mem_append_left _ (List.mem_map_of_mem (aliasEntry u) ha)))
  · apply String.ext
    rw [String.data_append]
    rfl

/-- Witness for C2 at the fixture's three-level nested alias. -/
theorem spec_C2_witness :
    (⟨"in/a/dir/alias3.service",
        upDots (aliasDepth "in/a/dir/alias3.service") ++ "install.service"⟩ :
      SymlinkPlanEntry) ∈ fixturePlan
    ∧ upDots 0 ++ "install.service" = "install.service" :=
  spec_C2_alias_depth ⟨"install.service"⟩ fixtureSpec fixturePlan
    "in/a/dir/alias3.service" rfl (by decide)

/-- The three dependency relations declarable in `[Install]`. -/
inductive Relation where
  | wants
  | requires
  | upholds
  deriving DecidableEq, Repr

/-- The target-unit list of an InstallSpec for one relation. -/
def relTargets (r : Relation) (s : InstallSpec) : List String :=
  match r with
  | .wants => s.wantedBy
  | .requires => s.requiredBy
  | .upholds => s.upheldBy

/-- The relation subdirectory suffix of one relation. -/
def relSuffix : Relation → String
  | .wants => ".wants"
  | .requires => ".requires"
  | .upholds => ".upholds"

/-- C3: for each target `t` in the wantedBy, requiredBy, or upheldBy list —
any one relation `r`, independently of the others, which may be empty —
(the list deduplicated upstream, hence `Nodup`), the planner emits exactly
one entry of that relation family; its link path is the target name plus
the relation suffix, a `'/'`, and the generated unit file name, and its
link target is exactly `"../"` plus the generated unit file name — one
`../` level, independent of any alias nesting in the same InstallSpec. -/
theorem spec_C3_relation_links (u : UnitIdentity) (s : InstallSpec)
    (l : List SymlinkPlanEntry) (r : Relation) (t : String)
    (h : plan u s = .ok l)
    (ht : t ∈ relTargets r s) (hnd : (relTargets r s).Nodup) :
    relationEntry u (relSuffix r) t ∈ l
    ∧ ((relTargets r s).map (relationEntry u (relSuffix r))).count
        (relationEntry u (relSuffix r) t) = 1
    ∧ relationEntry u (relSuffix r) t
        = ⟨t ++ relSuffix r ++ "/" ++ u.fileName, "../" ++ u.fileName⟩ := by
  refine ⟨?_, relation_family_count hnd ht, rfl⟩
  rw [plan_eq_ok h]
  cases r with
  | wants =>
    exact List.mem_append_left _ (List.mem_append_left _
      (List.mem_append_right _ (List.mem_map_of_mem _ ht)))
  | requires =>
    exact List.mem_append_left _ (List.mem_append_right _ (List.mem_map_of_mem _ ht))
  | upholds =>
    exact List.mem_append_right _ (List.mem_map_of_mem _ ht)

/-- Witness for C3: an InstallSpec whose only nonempty relation list is
`WantedBy=default.target` — the requiredBy and upheldBy lists are empty. -/
theorem spec_C3_witness :
    relationEntry ⟨"install.service"⟩ (relSuffix Relation.wants) "default.target"
        ∈ [(⟨"default.target.wants/install.service", "../install.service"⟩ : SymlinkPlanEntry)]
    ∧ ((relTargets Relation.wants ⟨[], ["default.target"], [], []⟩).map
        (relationEntry ⟨"install.service"⟩ (relSuffix Relation.wants))).count
        (relationEntry ⟨"install.service"⟩ (relSuffix Relation.wants) "default.target") = 1
    ∧ relationEntry ⟨"install.service"⟩ (relSuffix Relation.wants) "default.target"
        = ⟨"default.target" ++ relSuffix Relation.wants ++ "/" ++ "install.service",
           "../" ++ "install.service"⟩ :=
  spec_C3_relation_links ⟨"install.service"⟩ ⟨[], ["default.target"], [], []⟩
    [⟨"default.target.wants/install.service", "../install.service"⟩]
    Relation.wants "default.target" rfl (by decide) (by decide)

theorem addTokens_cons (acc : List String) (t : String) (ts : List String) :
    addTokens acc (t :: ts) = addTokens (if t ∈ acc then acc else acc ++ [t]) ts := rfl

theorem addTokens_nodup : ∀ (ts acc : List String), acc.Nodup → (addTokens acc ts).Nodup
  | [], _, h => h
  | t :: ts, acc, h => by
    rw [addTokens_cons]
    by_cases ht : t ∈ acc
    · rw [if_pos ht]; exact addTokens_nodup ts acc h
    · rw [if_neg ht]
      apply addTokens_nodup
      simp [List.nodup_append, h, ht]

theorem addTokens_mem : ∀ (ts acc : List String) (x : String),
    x ∈ addTokens acc ts ↔ x ∈ acc ∨ x ∈ ts
  | [], acc, x => by simp [addTokens]
  | t :: ts, acc, x => by
    rw [addTokens_cons]
    by_cases ht : t ∈ acc
    · rw [if_pos ht, addTokens_mem ts acc x]
      constructor
      · intro hc; rcases hc with hc | hc
        · exact Or.inl hc
        · exact Or.inr (List.mem_cons_of_mem t hc)
      · intro hc; rcases hc with hc | hc
        · exact Or.inl hc
        · rcases List.mem_cons.mp hc with hc | hc
          · exact Or.inl (hc ▸ ht)
          · exact Or.inr hc
    · rw [if_neg ht, addTokens_mem ts (acc ++ [t]) x]
      simp only [List.mem_append, List.mem_singleton, List.mem_cons]
      tauto

theorem addTokens_extends : ∀ (ts acc : List String), ∃ r, addTokens acc ts = acc ++ r
  | [], acc => ⟨[], by simp [addTokens]⟩
  | t :: ts, acc => by
    rw [addTokens_cons]
    by_cases ht : t ∈ acc
    · rw [if_pos ht]; exact addTokens_extends ts acc
    · rw [if_neg ht]
      obtain ⟨r, hr⟩ := addTokens_extends ts (acc ++ [t])
      exact ⟨[t] ++ r, by rw [hr, List.append_assoc]⟩

/-- C4: repeated occurrences of a directive key merge all their tokens into
a single ordered set — `WantedBy=a b` then `WantedBy=c a` extracts to the
ordered set `["a", "b", "c"]` — and in general merging (`addTokens`)
preserves freedom from duplicates, contains exactly the union of the old
set and the new tokens, and extends the old set at its end, preserving
first-seen order. -/
theorem spec_C4_merge_semantics (acc ts : List String) (hnd : acc.Nodup) :
    extractInstall [("WantedBy", "a b"), ("WantedBy", "c a")]
        = .ok ⟨[], ["a", "b", "c"], [], []⟩
    ∧ (addTokens acc ts).Nodup
    ∧ (∀ x, x ∈ addTokens acc ts ↔ x ∈ acc ∨ x ∈ ts)
    ∧ ∃ r, addTokens acc ts = acc ++ r :=
  ⟨rfl, addTokens_nodup ts acc hnd, fun x => addTokens_mem ts acc x, addTokens_extends ts acc⟩

/-- Witness for C4 with a duplicate token arriving in a later line. -/
theorem spec_C4_witness :
    extractInstall [("WantedBy", "a b"), ("WantedBy", "c a")]
        = .ok ⟨[], ["a", "b", "c"], [], []⟩
    ∧ (addTokens ["a"] ["b", "a"]).Nodup
    ∧ (∀ x, x ∈ addTokens ["a"] ["b", "a"] ↔ x ∈ ["a"] ∨ x ∈ ["b", "a"])
    ∧ ∃ r, addTokens ["a"] ["b", "a"] = ["a"] ++ r :=
  spec_C4_merge_semantics ["a"] ["b", "a"] (by decide)

theorem extractGo_error_of_bad : ∀ (sec : List (String × String)) (s0 : InstallSpec)
    (k v : String), (k, v) ∈ sec → recognizedKey k = true → hasBadToken v = true →
    ∃ k' v', extractGo sec s0 = .error (.malformedInstallDirective k' v')
      ∧ (k', v') ∈ sec ∧ recognizedKey k' = true ∧ hasBadToken v' = true
  | [], _, k, _, hmem, _, _ => absurd hmem (List.not_mem_nil _)
  | (k0, v0) :: rest, s0, k, v, hmem, hk, hb => by
    cases hr : recognizedKey k0 with
    | true =>
      cases hbad : hasBadToken v0 with
      | true =>
        refine ⟨k0, v0, ?_, List.mem_cons_self _ _, hr, hbad⟩
        simp [extractGo, hr, hbad]
      | false =>
        have hstep : extractGo ((k0, v0) :: rest) s0
            = extractGo rest (applyLine s0 k0 (tokenize v0)) := by
          simp [extractGo, hr, hbad]
        rcases List.mem_cons.mp hmem with heq | hrest
        · rw [Prod.mk.injEq] at heq
          rw [heq.2] at hb
          rw [hb] at hbad
          exact absurd hbad (by simp)
        · obtain ⟨k', v', h1, h2, h3, h4⟩ :=
            extractGo_error_of_bad rest (applyLine s0 k0 (tokenize v0)) k v hrest hk hb
          exact ⟨k', v', hstep ▸ h1, List.mem_cons_of_mem _ h2, h3, h4⟩
    | false =>
      have hstep : extractGo ((k0, v0) :: rest) s0 = extractGo rest s0 := by
        simp [extractGo, hr]
      rcases List.mem_cons.mp hmem with heq | hrest
      · rw [Prod.mk.injEq] at heq
        rw [heq.1] at hk
        rw [hk] at hr
        exact absurd hr (by simp)
      · obtain ⟨k', v', h1, h2, h3, h4⟩ := extractGo_error_of_bad rest s0 k v hrest hk hb
        exact ⟨k', v', hstep ▸ h1, List.mem_cons_of_mem _ h2, h3, h4⟩

/-- C6: a recognized `[Install]` directive carrying a malformed token — one
empty after unquoting or reducing to a bare path separator — makes
extraction fail with `malformedInstallDirective` identifying the offending
key and raw value; the whole unit's run aborts with the extraction error,
the tree is untouched, and no partial InstallSpec reaches the planner. -/
theorem spec_C6_malformed_abort (fs : Fs) (sec : List (String × String)) (u : UnitIdentity)
    (prevPaths : List String) (k v : String)
    (hmem : (k, v) ∈ sec) (hk : recognizedKey k = true) (hb : hasBadToken v = true) :
    ∃ k' v', runUnit fs sec u prevPaths
        = (fs, some (.extraction (.malformedInstallDirective k' v')))
      ∧ (k', v') ∈ sec ∧ recognizedKey k' = true ∧ hasBadToken v' = true := by
  obtain ⟨k', v', h1, h2, h3, h4⟩ :=
    extractGo_error_of_bad sec ⟨[], [], [], []⟩ k v hmem hk hb
  have hx : extractInstall sec = .error (.malformedInstallDirective k' v') := h1
  exact ⟨k', v', by simp [runUnit, hx], h2, h3, h4⟩

/-- Witness for C6: a lone path separator under `WantedBy`. -/
theorem spec_C6_witness :
    ∃ k' v', runUnit (fun _ => none) [("WantedBy", "/")] ⟨"install.service"⟩ []
        = ((fun _ => none), some (.extraction (.malformedInstallDirective k' v')))
      ∧ (k', v') ∈ [("WantedBy", "/")] ∧ recognizedKey k' = true ∧ hasBadToken v' = true :=
  spec_C6_malformed_abort (fun _ => none) [("WantedBy", "/")] ⟨"install.service"⟩ []
    "WantedBy" "/" (by decide) (by decide) (by decide)

theorem plan_error_of_bad_alias (u : UnitIdentity) {s : InstallSpec} {a : String}
    (ha : a ∈ s.aliases) (hu : aliasSafe a = false) :
    ∃ b, plan u s = .error (.aliasEscapesRoot b) ∧ b ∈ s.aliases ∧ aliasSafe b = false := by
  cases hf : s.aliases.find? (fun x => !aliasSafe x) with
  | none =>
    exfalso
    have hnone := List.find?_eq_none.mp hf a ha
    simp [hu] at hnone
  | some b =>
    refine ⟨b, ?_, List.mem_of_find?_eq_some hf, ?_⟩
    · simp [plan, hf]
    · have hpb := List.find?_some hf
      simpa using hpb

/-- C5: an InstallSpec containing an alias that begins with `'/'` or has a
literal `".."` segment makes the planner fail with the escaping-alias error
(the spec's `UnsafeAliasPath`); the unit's run aborts before
materialization, so the tree under the output root is returned unchanged
and no links are created. -/
theorem spec_C5_unsafe_alias_rejected (fs : Fs) (sec : List (String × String))
    (u : UnitIdentity) (prevPaths : List String) (s : InstallSpec) (a : String)
    (hx : extractInstall sec = .ok s) (ha : a ∈ s.aliases) (hu : aliasSafe a = false) :
    (runUnit fs sec u prevPaths).1 = fs
    ∧ ∃ b, (runUnit fs sec u prevPaths).2 = some (.planning (.aliasEscapesRoot b))
        ∧ b ∈ s.aliases ∧ aliasSafe b = false := by
  obtain ⟨b, hp, hbm, hbs⟩ := plan_error_of_bad_alias u ha hu
  constructor
  · simp [runUnit, hx, hp]
  · exact ⟨b, by simp [runUnit, hx, hp], hbm, hbs⟩

/-- Witness for C5: `Alias=../escape.service`. -/
theorem spec_C5_witness :
    (runUnit (fun _ => none) [("Alias", "../escape.service")] ⟨"install.service"⟩ []).1
        = (fun _ => none)
    ∧ ∃ b, (runUnit (fun _ => none) [("Alias", "../escape.service")] ⟨"install.service"⟩ []).2
          = some (.planning (.aliasEscapesRoot b))
        ∧ b ∈ (⟨["../escape.service"], [], [], []⟩ : InstallSpec).aliases
        ∧ aliasSafe b = false :=
  spec_C5_unsafe_alias_rejected (fun _ => none) [("Alias", "../escape.service")]
    ⟨"install.service"⟩ [] ⟨["../escape.service"], [], [], []⟩ "../escape.service"
    rfl (by decide) (by decide)

/-- The target stored at `q` by the last plan entry whose link path is `q`,
if any. -/
def lastTargetOf : List SymlinkPlanEntry → String → Option String
  | [], _ => none
  | e :: rest, q =>
    match lastTargetOf rest q with
    | some t => some t
    | none => if e.linkPath = q then some e.linkTarget else none

/-- All parent-directory paths the plan's entries may create. -/
def dirPathsOf : List SymlinkPlanEntry → List String
  | [] => []
  | e :: rest => parentPaths e.linkPath ++ dirPathsOf rest

theorem fsSet_apply (fs : Fs) (p : String) (n : Option FsNode) (q : String) :
    fsSet fs p n q = if q = p then n else fs q := rfl

theorem foldl_ensureDir_apply : ∀ (ps : List String) (fs : Fs) (q : String),
    (ps.foldl ensureDir fs) q = if q ∈ ps ∧ fs q = none then some .dir else fs q
  | [], fs, q => by simp
  | p :: ps, fs, q => by
    rw [List.foldl_cons, foldl_ensureDir_apply ps (ensureDir fs p) q]
    by_cases hq : q = p
    · subst hq
      cases hfq : fs q with
      | none =>
        have hd : ensureDir fs q q = some .dir := by
          simp [ensureDir, hfq, fsSet_apply]
        rw [hd]
        simp [hfq]
      | some x =>
        have hd : ensureDir fs q q = some x := by
          simp [ensureDir, hfq]
        rw [hd]
        simp [hfq]
    · have hd : ensureDir fs p q = fs q := by
        cases hfp : fs p with
        | none => simp [ensureDir, hfp, fsSet_apply, hq]
        | some x => simp [ensureDir, hfp]
      rw [hd]
      simp [List.mem_cons, hq]

theorem ensureParents_apply (fs : Fs) (p : String) (q : String) :
    ensureParents fs p q = if q ∈ parentPaths p ∧ fs q = none then some .dir else fs q :=
  foldl_ensureDir_apply (parentPaths p) fs q

theorem applyEntry_self (fs : Fs) (e : SymlinkPlanEntry) :
    applyEntry fs e e.linkPath = some (.symlink e.linkTarget) := by
  unfold applyEntry
  cases hn : ensureParents fs e.linkPath e.linkPath with
  | none => simp [hn, fsSet_apply]
  | some node =>
    cases node with
    | dir => simp [hn, fsSet_apply]
    | file => simp [hn, fsSet_apply]
    | symlink t =>
      by_cases ht : t = e.linkTarget
      · simp [hn, ht]
      · simp [hn, ht, fsSet_apply]

theorem applyEntry_other (fs : Fs) (e : SymlinkPlanEntry) (q : String)
    (hq : q ≠ e.linkPath) :
    applyEntry fs e q = if q ∈ parentPaths e.linkPath ∧ fs q = none then some .dir else fs q := by
  unfold applyEntry
  rw [← ensureParents_apply fs e.linkPath q]
  cases hn : ensureParents fs e.linkPath e.linkPath with
  | none => simp [hn, fsSet_apply, hq]
  | some node =>
    cases node with
    | dir => simp [hn, fsSet_apply, hq]
    | file => simp [hn, fsSet_apply, hq]
    | symlink t =>
      by_cases ht : t = e.linkTarget
      · simp [hn, ht]
      · simp [hn, ht, fsSet_apply, hq]

theorem lastTargetOf_eq_none {entries : List SymlinkPlanEntry} {q : String} :
    lastTargetOf entries q = none ↔ ∀ e ∈ entries, e.linkPath ≠ q := by
  induction entries with
  | nil => simp [lastTargetOf]
  | cons e rest ih =>
    unfold lastTargetOf
    rw [List.forall_mem_cons]
    cases h : lastTargetOf rest q with
    | some t =>
      constructor
      · intro hc; simp at hc
      · rintro ⟨-, hall⟩
        rw [ih.mpr hall] at h
        simp at h
    | none =>
      have hr := ih.mp h
      by_cases hp : e.linkPath = q
      · rw [if_pos hp]
        constructor
        · intro hc; simp at hc
        · rintro ⟨hne, -⟩; exact absurd hp hne
      · rw [if_neg hp]
        constructor
        · intro _; exact ⟨hp, hr⟩
        · intro _; rfl

theorem mem_dirPathsOf {q : String} : ∀ {entries : List SymlinkPlanEntry},
    q ∈ dirPathsOf entries ↔ ∃ e ∈ entries, q ∈ parentPaths e.linkPath := by
  intro entries
  induction entries with
  | nil => simp [dirPathsOf]
  | cons e rest ih =>
    unfold dirPathsOf
    rw [List.mem_append, ih]
    constructor
    · intro hc
      rcases hc with hc | ⟨e', he', hq⟩
      · exact ⟨e, List.mem_cons_self _ _, hc⟩
      · exact ⟨e', List.mem_cons_of_mem _ he', hq⟩
    · intro ⟨e', he', hq⟩
      rcases List.mem_cons.mp he' with rfl | hm
      · exact Or.inl hq
      · exact Or.inr ⟨e', hm, hq⟩

theorem lastTargetOf_cons (e : SymlinkPlanEntry) (rest : List SymlinkPlanEntry) (q : String) :
    lastTargetOf (e :: rest) q =
      match lastTargetOf rest q with
      | some t => some t
      | none => if e.linkPath = q then some e.linkTarget else none := rfl

theorem dirPathsOf_cons (e : SymlinkPlanEntry) (rest : List SymlinkPlanEntry) :
    dirPathsOf (e :: rest) = parentPaths e.linkPath ++ dirPathsOf rest := rfl

theorem materialize_apply : ∀ (entries : List SymlinkPlanEntry) (fs : Fs) (q : String),
    materialize fs entries q =
      match lastTargetOf entries q with
      | some t => some (.symlink t)
      | none => if q ∈ dirPathsOf entries ∧ fs q = none then some .dir else fs q
  | [], fs, q => by simp [materialize, lastTargetOf, dirPathsOf]
  | e :: rest, fs, q => by
    have hstep : materialize fs (e :: rest) = materialize (applyEntry fs e) rest := rfl
    rw [hstep, materialize_apply rest (applyEntry fs e) q, lastTargetOf_cons, dirPathsOf_cons]
    cases h : lastTargetOf rest q with
    | some t => rfl
    | none =>
      by_cases hp : e.linkPath = q
      · subst hp
        simp [applyEntry_self fs e]
      · have hq : q ≠ e.linkPath := fun hc => hp hc.symm
        rw [applyEntry_other fs e q hq]
        by_cases hpar : q ∈ parentPaths e.linkPath <;>
          by_cases hdr : q ∈ dirPathsOf rest <;>
            cases hfq : fs q <;>
              simp [hp, hpar, hdr, hfq, List.mem_append]

/-- C8: materialization is convergent — starting from any tree in which any
prefix of the plan (`n` of its links, for any `n`) has already been
materialized, re-running materialize with the full plan yields exactly the
tree a single full run from the original state produces.  With `n = 0` this
is determinism of a re-run; with `n ≥` the plan length it is idempotence
(running the pipeline twice equals running it once, links with the correct
stored target being left untouched); intermediate `n` is resumption after an
interruption at `n` of `M` links, which completes the remaining links
without disturbing the first `n`. -/
theorem spec_C8_idempotent_convergence (fs : Fs) (entries : List SymlinkPlanEntry) (n : Nat) :
    materialize (materialize fs (entries.take n)) entries = materialize fs entries := by
  funext q
  rw [materialize_apply, materialize_apply, materialize_apply]
  cases h : lastTargetOf entries q with
  | some t => rfl
  | none =>
    have htake : lastTargetOf (entries.take n) q = none :=
      lastTargetOf_eq_none.mpr
        (fun e he => lastTargetOf_eq_none.mp h e (List.take_subset n entries he))
    rw [htake]
    have hsub : q ∈ dirPathsOf (entries.take n) → q ∈ dirPathsOf entries := by
      intro hq
      obtain ⟨e, he, hpq⟩ := mem_dirPathsOf.mp hq
      exact mem_dirPathsOf.mpr ⟨e, List.take_subset n entries he, hpq⟩
    by_cases hdt : q ∈ dirPathsOf (entries.take n)
    · have hd := hsub hdt
      cases hfq : fs q <;> simp [hd, hdt, hfq]
    · by_cases hd : q ∈ dirPathsOf entries <;>
        cases hfq : fs q <;> simp [hd, hdt, hfq]

theorem removeStale_apply : ∀ (prevPaths curPaths : List String) (fs : Fs) (q : String),
    removeStale fs prevPaths curPaths q = if q ∈ prevPaths ∧ q ∉ curPaths then none else fs q
  | [], cur, fs, q => by simp [removeStale]
  | p :: ps, cur, fs, q => by
    have hstep : removeStale fs (p :: ps) cur
        = removeStale (if p ∈ cur then fs else fsSet fs p none) ps cur := rfl
    rw [hstep, removeStale_apply ps cur _ q]
    by_cases hqp : q = p
    · subst hqp
      by_cases hpc : q ∈ cur
      · simp [hpc]
      · simp [hpc, fsSet_apply]
    · by_cases hpc : p ∈ cur
      · simp [hpc, List.mem_cons, hqp]
      · simp [hpc, fsSet_apply, hqp, List.mem_cons]

/-- C9: a generation run removes exactly the previously created links whose
path is absent from the current plan, and leaves every other path — in
particular links belonging to other source units in the shared output root
— unchanged: at any path `q` that the current plan neither links nor uses
as a parent directory, the run yields `none` exactly when `q` was owned by
the previous run, and the original content otherwise. -/
theorem spec_C9_stale_cleanup_frame (fs : Fs) (prevPaths : List String)
    (entries : List SymlinkPlanEntry) (q : String)
    (h1 : q ∉ entries.map SymlinkPlanEntry.linkPath)
    (h2 : q ∉ dirPathsOf entries) :
    generationRun fs prevPaths entries q = if q ∈ prevPaths then none else fs q := by
  have hlt : lastTargetOf entries q = none := by
    apply lastTargetOf_eq_none.mpr
    intro e he hc
    exact h1 (hc ▸ List.mem_map_of_mem SymlinkPlanEntry.linkPath he)
  unfold generationRun
  rw [materialize_apply, hlt, removeStale_apply]
  by_cases hp : q ∈ prevPaths
  · simp [h2, hp, h1]
  · simp [h2, hp]

/-- Witness for C9: a stale link owned by the previous run is removed, while
the fixture plan's own paths are untouched by cleanup. -/
theorem spec_C9_witness :
    generationRun (fun _ => none) ["old-alias.service"] fixturePlan "old-alias.service"
      = if "old-alias.service" ∈ ["old-alias.service"] then none
        else (fun _ => none : Fs) "old-alias.service" :=
  spec_C9_stale_cleanup_frame (fun _ => none) ["old-alias.service"] fixturePlan
    "old-alias.service" (by decide) (by decide)

end Quadlet

namespace PodmanPull

/-- The platform-selection fields of `entities.ImagePullOptions` that
`imagePull` (cmd/podman/images/pull.go) fills from the `--os`, `--arch`,
`--variant`, and `--platform` flags. -/
structure PullOpts where
  os : String
  arch : String
  variant : String
  deriving DecidableEq, Repr

/-- The exact error text `imagePull` returns when `--platform` is combined
with `--arch` or `--os`. -/
def platformConflictMsg : String :=
  "--platform option can not be specified with --arch or --os"

/-- The platform-handling block of `imagePull`: when the `--platform` flag
value is non-empty, reject a combination with `--arch`/`--os`; otherwise
split the value on `'/'` and assign the first component to OS, the second
(when present) to Arch, and the third (when present) to Variant. -/
def applyPlatform (opts : PullOpts) (platform : String) : Except String PullOpts :=
  if platform = "" then .ok opts
  else if opts.arch ≠ "" ∨ opts.os ≠ "" then .error platformConflictMsg
  else
    let specs := Quadlet.splitSlash platform
    let o1 : PullOpts := { opts with os := specs.getD 0 "" }
    let o2 : PullOpts := if 1 < specs.length then { o1 with arch := specs.getD 1 "" } else o1
    let o3 : PullOpts := if 2 < specs.length then { o2 with variant := specs.getD 2 "" } else o2
    .ok o3

/-- `imagePull` after flag processing: the platform block runs first and an
error from it returns before the pull loop over the image arguments is
entered; on success every image argument is pulled with the resulting
options. -/
def imagePullModel (opts : PullOpts) (platform : String) (args : List String) :
    Except String (PullOpts × List String) :=
  match applyPlatform opts platform with
  | .error e => .error e
  | .ok o => .ok (o, args)

/-- C10: for a non-empty `--platform` value, `imagePull` errors out with
"--platform option can not be specified with --arch or --os" before any
pull is attempted whenever `--arch` or `--os` was also given; otherwise the
platform string is split on `'/'` and its first, second, and third
components (when present) become OS, Arch, and Variant, and the pulls
proceed. -/
theorem spec_C10_platform_flag (opts : PullOpts) (platform : String) (args : List String)
    (hp : platform ≠ "") :
    imagePullModel opts platform args =
      if opts.arch ≠ "" ∨ opts.os ≠ "" then .error platformConflictMsg
      else .ok
        ({ os := (Quadlet.splitSlash platform).getD 0 "",
           arch := if 1 < (Quadlet.splitSlash platform).length
                   then (Quadlet.splitSlash platform).getD 1 "" else opts.arch,
           variant := if 2 < (Quadlet.splitSlash platform).length
                      then (Quadlet.splitSlash platform).getD 2 "" else opts.variant },
         args) := by
  by_cases hc : opts.arch ≠ "" ∨ opts.os ≠ ""
  · simp [imagePullModel, applyPlatform, hp, hc]
  · push_neg at hc
    obtain ⟨ha, ho⟩ := hc
    by_cases h1 : 1 < (Quadlet.splitSlash platform).length <;>
      by_cases h2 : 2 < (Quadlet.splitSlash platform).length <;>
        simp [imagePullModel, applyPlatform, hp, ha, ho, h1, h2]

/-- Witness for C10 at `--platform linux/arm64/v8` with no `--arch`/`--os`. -/
theorem spec_C10_witness :
    imagePullModel ⟨"", "", ""⟩ "linux/arm64/v8" ["fedora:latest"] =
      if ("" : String) ≠ "" ∨ ("" : String) ≠ "" then .error platformConflictMsg
      else .ok
        ({ os := (Quadlet.splitSlash "linux/arm64/v8").getD 0 "",
           arch := if 1 < (Quadlet.splitSlash "linux/arm64/v8").length
                   then (Quadlet.splitSlash "linux/arm64/v8").getD 1 "" else "",
           variant := if 2 < (Quadlet.splitSlash "linux/arm64/v8").length
                      then (Quadlet.splitSlash "linux/arm64/v8").getD 2 "" else "" },
         ["fedora:latest"]) :=
  spec_C10_platform_flag ⟨"", "", ""⟩ "linux/arm64/v8" ["fedora:latest"] (by decide)

end PodmanPull
